import Mathlib

/-!
Verification of the task-1 concurrency-control harness
(`src/task-1/1_lost_update.py`, `2_in_place_update.py`,
`3_row_level_locking.py`, `4_optimistic_concurrency_control.py`,
`src/task-1/utils.py`).

The harness mutates a single shared row of the `user_counter` table, keyed by
the fixed `user_id = 1`.  We model that one row as a `Row` record holding its
`counter` and `version` columns (the key is fixed and therefore omitted), and
the store as an `Option Row` when the row may be missing.

Worker interleaving is modelled per strategy as a small-step transition
function over a state holding the shared row and each worker's loop state; a
run is a fold of the step function over an arbitrary schedule of actions,
so theorems quantified over schedules cover every interleaving.
-/

namespace Task1

/-- The single shared row of `user_counter` for `user_id = 1`:
its `counter` and `version` columns. -/
structure Row where
  counter : Nat
  version : Nat
deriving DecidableEq, Repr

/-! ### Bootstrapper (`utils.ensure_row_exists`) -/

/-- The bootstrap upsert of `utils.ensure_row_exists`:
`INSERT INTO user_counter (user_id, counter, version) VALUES (1, 0, 1)
ON CONFLICT (user_id) DO UPDATE SET counter = EXCLUDED.counter,
version = EXCLUDED.version`.  An absent row is inserted as `(0, 1)`; a
present row has its `counter` and `version` overwritten with the excluded
values `0` and `1`. -/
def upsertCounterRow : Option Row → Option Row
  | none => some ⟨0, 1⟩
  | some r => some { r with counter := 0, version := 1 }

/-- `utils.ensure_row_exists`: `psycopg2.connect` happens before the inner
`try`, so a connection failure propagates as an exception (`.error`); the
upsert and commit are inside `try/except Exception: logging.error(...)`, so a
query failure is logged and swallowed, returning with the store unchanged. -/
def ensure_row_exists (connFails queryFails : Bool) (st : Option Row) :
    Except Unit (Option Row) :=
  if connFails then .error ()
  else if queryFails then .ok st
  else .ok (upsertCounterRow st)

/-! ### SharedCounterStore primitives -/

/-- The in-place strategy's single operation
(`UPDATE user_counter SET counter = counter + 1 WHERE user_id = 1
RETURNING counter`): one server-side read-increment-write; returns the
post-increment value. -/
def atomicIncrement (r : Row) : Row × Nat :=
  ({ r with counter := r.counter + 1 }, r.counter + 1)

/-- The OCC conditional write
(`UPDATE user_counter SET counter = %s, version = %s WHERE user_id = 1 AND
version = %s`): writes `newCounter` and `newVersion` only when the stored
`version` equals `expectedVersion`; the returned flag is `rowcount > 0`,
i.e. whether the write applied. -/
def compareAndSwap (r : Row) (expectedVersion newCounter newVersion : Nat) :
    Row × Bool :=
  if r.version = expectedVersion then (⟨newCounter, newVersion⟩, true)
  else (r, false)

/-! ### Interleaved model of the in-place strategy (`2_in_place_update.py`)

Worker `i`'s loop state is just its number of remaining iterations; each
enabled action performs one `atomicIncrement` and consumes one iteration. -/

structure IPState where
  row : Row
  remaining : List Nat
deriving DecidableEq, Repr

/-- One scheduled step of worker `i` of the in-place strategy: if worker `i`
exists and has iterations left, it executes one atomic
`UPDATE ... SET counter = counter + 1` and commits; otherwise nothing
happens. -/
def ipStep (s : IPState) (i : Nat) : IPState :=
  match s.remaining[i]? with
  | some (Nat.succ r) =>
      { row := (atomicIncrement s.row).1, remaining := s.remaining.set i r }
  | _ => s

/-- A run of the in-place strategy under an arbitrary schedule. -/
def ipRun (s : IPState) (sched : List Nat) : IPState :=
  sched.foldl ipStep s

/-- Initial state after bootstrap: counter `0`, version `1`, `p` workers
with `n` iterations each. -/
def ipInit (p n : Nat) : IPState :=
  { row := ⟨0, 1⟩, remaining := List.replicate p n }

/-- All in-place workers have completed their loops. -/
abbrev ipDone (s : IPState) : Prop := ∀ r ∈ s.remaining, r = 0

/-! ### Interleaved model of the row-lock strategy (`3_row_level_locking.py`)

`SELECT ... FOR UPDATE` acquires an exclusive row lock held until the
commit of the subsequent `UPDATE`.  A worker's iteration is two steps:
acquire-and-read (only when no one holds the lock), then
write-and-commit (releasing the lock). -/

inductive RLPhase where
  /-- Between iterations: not holding the lock. -/
  | idle : RLPhase
  /-- Holding the row lock, having read counter value `c` under it. -/
  | locked : Nat → RLPhase
deriving DecidableEq, Repr

structure RLWorker where
  remaining : Nat
  phase : RLPhase
deriving DecidableEq, Repr

structure RLState where
  row : Row
  /-- Which worker currently holds the exclusive row lock, if any. -/
  lockHolder : Option Nat
  workers : List RLWorker
deriving DecidableEq, Repr

inductive RLAct where
  /-- Worker `i` runs `SELECT counter ... FOR UPDATE` (blocks unless the
  lock is free). -/
  | acquireRead : Nat → RLAct
  /-- Worker `i` runs `UPDATE ... SET counter = %s` and `commit`,
  releasing the lock. -/
  | writeCommit : Nat → RLAct
deriving DecidableEq, Repr

/-- One scheduled step of the row-lock strategy.  `acquireRead i` fires only
when the lock is free and worker `i` is idle with iterations left: it locks
the row and records the read counter.  `writeCommit i` fires when worker `i`
holds a read value: it writes `read value + 1`, commits (releasing the
lock), and finishes the iteration. -/
def rlStep (s : RLState) (a : RLAct) : RLState :=
  match a with
  | .acquireRead i =>
    match s.workers[i]?, s.lockHolder with
    | some w, none =>
      match w.phase, w.remaining with
      | .idle, Nat.succ _ =>
          { s with lockHolder := some i,
                   workers := s.workers.set i
                     ({ w with phase := .locked s.row.counter }) }
      | _, _ => s
    | _, _ => s
  | .writeCommit i =>
    match s.workers[i]? with
    | some w =>
      match w.phase with
      | .locked c =>
          { row := { s.row with counter := c + 1 },
            lockHolder := none,
            workers := s.workers.set i ⟨w.remaining - 1, .idle⟩ }
      | .idle => s
    | none => s

/-- A run of the row-lock strategy under an arbitrary schedule. -/
def rlRun (s : RLState) (sched : List RLAct) : RLState :=
  sched.foldl rlStep s

/-- Initial state after bootstrap for the row-lock strategy. -/
def rlInit (p n : Nat) : RLState :=
  { row := ⟨0, 1⟩, lockHolder := none,
    workers := List.replicate p ⟨n, .idle⟩ }

/-- All row-lock workers have completed their loops. -/
abbrev rlDone (s : RLState) : Prop := ∀ w ∈ s.workers, w.remaining = 0

/-! ### Interleaved model of the OCC strategy
(`4_optimistic_concurrency_control.py`)

A worker's attempt is two steps: read the `(counter, version)` snapshot,
then `compareAndSwap` on it.  A failed swap resets the worker to `idle`
without consuming the iteration (the `while True` retries it); a successful
swap commits and consumes the iteration. -/

inductive OCCPhase where
  /-- About to (re)start an attempt of the current iteration. -/
  | idle : OCCPhase
  /-- Holding the snapshot `(counter, version)` from
  `SELECT counter, version ...`. -/
  | snap : Nat → Nat → OCCPhase
deriving DecidableEq, Repr

structure OCCWorker where
  remaining : Nat
  phase : OCCPhase
deriving DecidableEq, Repr

structure OCCState where
  row : Row
  workers : List OCCWorker
deriving DecidableEq, Repr

inductive OCCAct where
  /-- Worker `i` runs `SELECT counter, version FROM user_counter`. -/
  | read : Nat → OCCAct
  /-- Worker `i` runs the conditional `UPDATE` on its snapshot. -/
  | cas : Nat → OCCAct
deriving DecidableEq, Repr

/-- One scheduled step of the OCC strategy.  `read i` fires when worker `i`
is idle with iterations left, capturing the snapshot.  `cas i` applies
`compareAndSwap` with the snapshot's version as the expected version and
`counter + 1`, `version + 1` as the new values: on success (`rowcount > 0`)
the worker commits and the iteration completes; on failure the row is
untouched and the worker retries the same iteration. -/
def occStep (s : OCCState) (a : OCCAct) : OCCState :=
  match a with
  | .read i =>
    match s.workers[i]? with
    | some w =>
      match w.phase, w.remaining with
      | .idle, Nat.succ _ =>
          let w' := { w with phase := .snap s.row.counter s.row.version }
          { s with workers := s.workers.set i w' }
      | _, _ => s
    | none => s
  | .cas i =>
    match s.workers[i]? with
    | some w =>
      match w.phase with
      | .snap c v =>
          let res := compareAndSwap s.row v (c + 1) (v + 1)
          if res.2 then
            { row := res.1,
              workers := s.workers.set i ⟨w.remaining - 1, .idle⟩ }
          else
            { row := res.1,
              workers := s.workers.set i { w with phase := .idle } }
      | .idle => s
    | none => s

/-- A run of the OCC strategy under an arbitrary schedule. -/
def occRun (s : OCCState) (sched : List OCCAct) : OCCState :=
  sched.foldl occStep s

/-- Initial state after bootstrap for the OCC strategy. -/
def occInit (p n : Nat) : OCCState :=
  { row := ⟨0, 1⟩, workers := List.replicate p ⟨n, .idle⟩ }

/-- All OCC workers have completed their loops. -/
abbrev occDone (s : OCCState) : Prop := ∀ w ∈ s.workers, w.remaining = 0

/-! ### Interleaved model of the lost-update strategy (`1_lost_update.py`)

Plain `SELECT` then unconditional `UPDATE counter = read value + 1`:
no lock, no version guard, so the read value can go stale between the two
steps. -/

inductive LUPhase where
  | idle : LUPhase
  /-- Holding the plainly-read counter value `c` in process memory. -/
  | readValue : Nat → LUPhase
deriving DecidableEq, Repr

structure LUWorker where
  remaining : Nat
  phase : LUPhase
deriving DecidableEq, Repr

structure LUState where
  row : Row
  workers : List LUWorker
deriving DecidableEq, Repr

inductive LUAct where
  /-- Worker `i` runs `SELECT counter FROM user_counter WHERE user_id = 1`. -/
  | read : Nat → LUAct
  /-- Worker `i` runs `UPDATE user_counter SET counter = %s` with its
  incremented in-memory value, then `commit`. -/
  | write : Nat → LUAct
deriving DecidableEq, Repr

/-- One scheduled step of the lost-update strategy: `read i` captures the
current counter into worker `i`'s memory; `write i` unconditionally stores
`read value + 1`, regardless of any concurrent writes since the read. -/
def luStep (s : LUState) (a : LUAct) : LUState :=
  match a with
  | .read i =>
    match s.workers[i]? with
    | some w =>
      match w.phase, w.remaining with
      | .idle, Nat.succ _ =>
          let w' := { w with phase := .readValue s.row.counter }
          { s with workers := s.workers.set i w' }
      | _, _ => s
    | none => s
  | .write i =>
    match s.workers[i]? with
    | some w =>
      match w.phase with
      | .readValue c =>
          { row := { s.row with counter := c + 1 },
            workers := s.workers.set i ⟨w.remaining - 1, .idle⟩ }
      | .idle => s
    | none => s

/-- A run of the lost-update strategy under an arbitrary schedule. -/
def luRun (s : LUState) (sched : List LUAct) : LUState :=
  sched.foldl luStep s

/-- Initial state after bootstrap for the lost-update strategy. -/
def luInit (p n : Nat) : LUState :=
  { row := ⟨0, 1⟩, workers := List.replicate p ⟨n, .idle⟩ }

/-- The schedule of one worker (index 0) running its iterations alone:
read then write, `n` times. -/
def luSoloSched : Nat → List LUAct
  | 0 => []
  | Nat.succ n => LUAct.read 0 :: LUAct.write 0 :: luSoloSched n

/-! ### Sequential worker loops over a possibly-missing row

For the row-missing behaviour the interleaving is irrelevant, so each
strategy's per-worker loop is modelled directly, over an `Option Row` store
(`none` = no row for `user_id = 1`).  Each loop returns the final store and
the number of `for`-loop iterations the worker actually executed. -/

/-- The `for i in range(NUM_UPDATES)` loop of `lost_update`: a `None` read
logs `"No row found for user_id 1"` and `break`s out of the loop (that
iteration executed, none after it); otherwise the worker writes
`counter + 1` and continues. -/
def lostUpdateLoop : Option Row → Nat → Option Row × Nat
  | st, 0 => (st, 0)
  | none, Nat.succ _ => (none, 1)
  | some r, Nat.succ n =>
      let res := lostUpdateLoop (some { r with counter := r.counter + 1 }) n
      (res.1, res.2 + 1)

/-- The loop of `row_level_locking`: an empty `SELECT ... FOR UPDATE` result
logs `"No row found for user_id = 1. Skipping update."` and falls through to
the next iteration of the `for` loop (no `break`); otherwise the worker
writes `counter + 1` and continues. -/
def rowLockLoop : Option Row → Nat → Option Row × Nat
  | st, 0 => (st, 0)
  | none, Nat.succ n =>
      let res := rowLockLoop none n
      (res.1, res.2 + 1)
  | some r, Nat.succ n =>
      let res := rowLockLoop (some { r with counter := r.counter + 1 }) n
      (res.1, res.2 + 1)

/-- The loop of `optimistic_concurrency_control` run by a single worker with
no contention: an empty read logs `"No row found for user_id = 1. Skipping
update."` and `break`s the inner `while True` only, so the outer `for`
proceeds to its next iteration; with the row present the lone worker's
`compareAndSwap` succeeds and the iteration commits
`(counter + 1, version + 1)`. -/
def occLoop : Option Row → Nat → Option Row × Nat
  | st, 0 => (st, 0)
  | none, Nat.succ n =>
      let res := occLoop none n
      (res.1, res.2 + 1)
  | some r, Nat.succ n =>
      let res := occLoop
        (some (compareAndSwap r r.version (r.counter + 1) (r.version + 1)).1) n
      (res.1, res.2 + 1)

/-! ### `__main__` orchestration of the lost-update script

`ensure_row_exists()` runs first; only an exception from it (a connection
failure) prevents the worker processes from being spawned.  For the claim
about whether workers start at all, the workers may be run in any order;
we run them sequentially. -/

/-- `p` lost-update workers of `n` iterations each, run back to back;
returns the final store and the total number of loop iterations executed
across all workers. -/
def lostWorkers : Option Row → Nat → Nat → Option Row × Nat
  | st, 0, _ => (st, 0)
  | st, Nat.succ p, n =>
      let res₁ := lostUpdateLoop st n
      let res₂ := lostWorkers res₁.1 p n
      (res₂.1, res₁.2 + res₂.2)

/-- The `__main__` block of `1_lost_update.py`: call `ensure_row_exists()`,
then spawn and join the workers.  An exception from `ensure_row_exists`
(connection failure) aborts before any worker starts; a swallowed query
failure does not. -/
def runMainLost (connFails queryFails : Bool) (st : Option Row) (p n : Nat) :
    Except Unit (Option Row × Nat) :=
  match ensure_row_exists connFails queryFails st with
  | .error e => .error e
  | .ok st' => .ok (lostWorkers st' p n)

/-! ### Store-error behaviour inside the loops

Error schedules are explicit inputs.  For OCC, each iteration is given the
number of consecutive store errors it hits before an attempt succeeds; every
error is rolled back, logged, and the attempt retried inside the same
iteration.  For the other strategies an error raises out of the `for` loop
into the function-level `except`, aborting the worker's loop. -/

/-- One OCC iteration hitting `e` store errors before succeeding: each error
rolls back (store unchanged) and retries; returns the store after the
eventual successful commit and the number of attempts made. -/
def occIterAttempts : Row → Nat → Row × Nat
  | r, 0 => ((compareAndSwap r r.version (r.counter + 1) (r.version + 1)).1, 1)
  | r, Nat.succ e =>
      let res := occIterAttempts r e
      (res.1, res.2 + 1)

/-- An OCC worker's full loop under a per-iteration error-count schedule
(one entry per iteration of `for i in range(NUM_UPDATES)`); returns the
final store and the number of completed (committed) iterations. -/
def occRunE : Row → List Nat → Row × Nat
  | r, [] => (r, 0)
  | r, e :: es =>
      let res₁ := occIterAttempts r e
      let res₂ := occRunE res₁.1 es
      (res₂.1, res₂.2 + 1)

/-- A lost-update worker's loop with a per-iteration error flag: an error
raises to the function-level `except`, ending the loop with the store
unchanged by that iteration; returns the final store and the number of
completed iterations. -/
def lostRunE : Row → List Bool → Row × Nat
  | r, [] => (r, 0)
  | r, true :: _ => (r, 0)
  | r, false :: es =>
      let res := lostRunE { r with counter := r.counter + 1 } es
      (res.1, res.2 + 1)

/-- An in-place worker's loop with a per-iteration error flag: same
function-level `except`, so an error aborts the loop. -/
def inPlaceRunE : Row → List Bool → Row × Nat
  | r, [] => (r, 0)
  | r, true :: _ => (r, 0)
  | r, false :: es =>
      let res := inPlaceRunE (atomicIncrement r).1 es
      (res.1, res.2 + 1)

/-- A row-lock worker's loop with a per-iteration error flag: same
function-level `except`, so an error aborts the loop. -/
def rowLockRunE : Row → List Bool → Row × Nat
  | r, [] => (r, 0)
  | r, true :: _ => (r, 0)
  | r, false :: es =>
      let res := rowLockRunE { r with counter := r.counter + 1 } es
      (res.1, res.2 + 1)

/-! ### Run invariants -/

/-- Total remaining iterations across all row-lock workers. -/
def rlWSum (s : RLState) : Nat := (s.workers.map RLWorker.remaining).sum

/-- Invariant of the row-lock run: the committed increments plus the
remaining iterations account for the whole workload, and a worker holding a
read value holds the row lock, its read value is current (nobody can have
written since it locked the row), and it still has an iteration to spend. -/
def rlInv (total : Nat) (s : RLState) : Prop :=
  s.row.counter + rlWSum s = total ∧
  ∀ (i : Nat) (w : RLWorker), s.workers[i]? = some w →
    ∀ c : Nat, w.phase = .locked c →
      s.lockHolder = some i ∧ c = s.row.counter ∧ 0 < w.remaining

/-- Total remaining iterations across all OCC workers. -/
def occWSum (s : OCCState) : Nat := (s.workers.map OCCWorker.remaining).sum

/-- Invariant of the OCC run: starting from the bootstrapped `(0, 1)` every
successful swap moves the row from `(c, c + 1)` to `(c + 1, c + 2)`, so the
version always determines the counter; every held snapshot was taken in such
a state; and a snapshot is only held while an iteration remains. -/
def occInv (total : Nat) (s : OCCState) : Prop :=
  s.row.version = s.row.counter + 1 ∧
  s.row.counter + occWSum s = total ∧
  ∀ (i : Nat) (w : OCCWorker), s.workers[i]? = some w →
    ∀ c v : Nat, w.phase = .snap c v → v = c + 1 ∧ 0 < w.remaining

/-! ## Helper lemmas -/

theorem sum_map_set {α : Type} (f : α → Nat) :
    ∀ (l : List α) (i : Nat) (a b : α), l[i]? = some b →
      ((l.set i a).map f).sum + f b = (l.map f).sum + f a := by
  intro l
  induction l with
  | nil => intro i a b h; simp at h
  | cons x xs ih =>
    intro i a b h
    cases i with
    | zero =>
      simp only [List.getElem?_cons_zero, Option.some.injEq] at h
      subst h
      simp only [List.set_cons_zero, List.map_cons, List.sum_cons]
      omega
    | succ j =>
      simp only [List.getElem?_cons_succ] at h
      have hj := ih j a b h
      simp only [List.set_cons_succ, List.map_cons, List.sum_cons]
      omega

theorem sum_set_nat :
    ∀ (l : List Nat) (i a b : Nat), l[i]? = some b →
      (l.set i a).sum + b = l.sum + a := by
  intro l
  induction l with
  | nil => intro i a b h; simp at h
  | cons x xs ih =>
    intro i a b h
    cases i with
    | zero =>
      simp only [List.getElem?_cons_zero, Option.some.injEq] at h
      subst h
      simp only [List.set_cons_zero, List.sum_cons]
      omega
    | succ j =>
      simp only [List.getElem?_cons_succ] at h
      have hj := ih j a b h
      simp only [List.set_cons_succ, List.sum_cons]
      omega

theorem foldl_preserves {σ α : Type} (step : σ → α → σ) (P : σ → Prop)
    (hstep : ∀ s a, P s → P (step s a)) :
    ∀ (sched : List α) (s : σ), P s → P (sched.foldl step s) := by
  intro sched
  induction sched with
  | nil => intro s hs; exact hs
  | cons a t ih => intro s hs; exact ih (step s a) (hstep s a hs)

theorem sum_map_zero {α : Type} (f : α → Nat) (l : List α)
    (h : ∀ x ∈ l, f x = 0) : (l.map f).sum = 0 := by
  apply List.sum_eq_zero
  intro x hx
  obtain ⟨y, hy, rfl⟩ := List.mem_map.mp hx
  exact h y hy

theorem getElem?_replicate_some {α : Type} {a w : α} {p i : Nat}
    (h : (List.replicate p a)[i]? = some w) : w = a := by
  rw [List.getElem?_replicate] at h
  by_cases hip : i < p
  · rw [if_pos hip] at h
    exact (Option.some.inj h).symm
  · rw [if_neg hip] at h
    cases h

theorem occIterAttempts_eq (r : Row) :
    ∀ e : Nat,
      occIterAttempts r e = (⟨r.counter + 1, r.version + 1⟩, e + 1) := by
  intro e
  induction e with
  | zero => simp [occIterAttempts, compareAndSwap]
  | succ e ih => simp [occIterAttempts, ih]

theorem occRunE_spec :
    ∀ (es : List Nat) (r : Row),
      (occRunE r es).2 = es.length ∧
      (occRunE r es).1.counter = r.counter + es.length := by
  intro es
  induction es with
  | nil => intro r; simp [occRunE]
  | cons e es ih =>
    intro r
    have h := ih ⟨r.counter + 1, r.version + 1⟩
    simp [occRunE, occIterAttempts_eq, h.1, h.2]
    omega

/-! ### In-place strategy: each step preserves counter + remaining work -/

theorem ipStep_counter_sum (s : IPState) (i : Nat) :
    (ipStep s i).row.counter + (ipStep s i).remaining.sum
      = s.row.counter + s.remaining.sum := by
  simp only [ipStep]
  split
  · rename_i r heq
    have hs := sum_set_nat s.remaining i r (r + 1) heq
    simp [atomicIncrement]
    omega
  · rfl

theorem ipRun_counter_sum (s : IPState) (sched : List Nat) :
    (ipRun s sched).row.counter + (ipRun s sched).remaining.sum
      = s.row.counter + s.remaining.sum := by
  unfold ipRun
  refine foldl_preserves ipStep
    (fun t => t.row.counter + t.remaining.sum
      = s.row.counter + s.remaining.sum) ?_ sched s rfl
  intro t j ht
  rw [← ht]
  exact ipStep_counter_sum t j

/-! ### Row-lock strategy: invariant preservation -/

theorem rlStep_inv (total : Nat) (s : RLState) (a : RLAct)
    (h : rlInv total s) : rlInv total (rlStep s a) := by
  obtain ⟨hsum, hlock⟩ := h
  rcases a with i | i
  · simp only [rlStep]
    split
    · rename_i w hw hfree
      split
      · rename_i hphase hrem
        obtain ⟨hlen, -⟩ := List.getElem?_eq_some.mp hw
        constructor
        · have hs := sum_map_set RLWorker.remaining s.workers i
            { w with phase := .locked s.row.counter } w hw
          simp only [rlWSum] at hsum ⊢
          simp only at hs
          omega
        · intro j u hu c hph
          by_cases hji : j = i
          · subst hji
            rw [List.getElem?_set_self hlen] at hu
            obtain rfl := Option.some.inj hu
            simp only at hph
            obtain rfl := (RLPhase.locked.inj hph).symm
            refine ⟨rfl, rfl, ?_⟩
            simp only
            omega
          · rw [List.getElem?_set_ne (fun hij => hji hij.symm)] at hu
            obtain ⟨hl, -, -⟩ := hlock j u hu c hph
            rw [hfree] at hl
            cases hl
      · exact ⟨hsum, hlock⟩
    · exact ⟨hsum, hlock⟩
  · simp only [rlStep]
    split
    · rename_i w hw
      split
      · rename_i c hphase
        obtain ⟨hl, hc, hr⟩ := hlock i w hw c hphase
        constructor
        · have hs := sum_map_set RLWorker.remaining s.workers i
            ⟨w.remaining - 1, .idle⟩ w hw
          simp only [rlWSum] at hsum ⊢
          simp only at hs
          omega
        · intro j u hu c' hph
          by_cases hji : j = i
          · subst hji
            obtain ⟨hlen, -⟩ := List.getElem?_eq_some.mp hw
            rw [List.getElem?_set_self hlen] at hu
            obtain rfl := Option.some.inj hu
            simp only at hph
            cases hph
          · rw [List.getElem?_set_ne (fun hij => hji hij.symm)] at hu
            obtain ⟨hl', -, -⟩ := hlock j u hu c' hph
            rw [hl] at hl'
            cases Option.some.inj hl'
            exact absurd rfl hji
      · exact ⟨hsum, hlock⟩
    · exact ⟨hsum, hlock⟩

theorem rlRun_inv (total : Nat) (s : RLState) (sched : List RLAct)
    (h : rlInv total s) : rlInv total (rlRun s sched) := by
  unfold rlRun
  exact foldl_preserves rlStep (rlInv total)
    (fun t a ht => rlStep_inv total t a ht) sched s h

theorem rlInit_inv (p n : Nat) : rlInv (p * n) (rlInit p n) := by
  constructor
  · simp [rlInit, rlWSum, List.map_replicate, List.sum_replicate, mul_comm]
  · intro i w hw c hph
    have := getElem?_replicate_some hw
    subst this
    cases hph

/-! ### OCC strategy: invariant preservation -/

theorem occStep_inv (total : Nat) (s : OCCState) (a : OCCAct)
    (h : occInv total s) : occInv total (occStep s a) := by
  obtain ⟨hver, hsum, hsnap⟩ := h
  rcases a with i | i
  · simp only [occStep]
    split
    · rename_i w hw
      split
      · rename_i hphase hrem
        obtain ⟨hlen, -⟩ := List.getElem?_eq_some.mp hw
        refine ⟨hver, ?_, ?_⟩
        · have hs := sum_map_set OCCWorker.remaining s.workers i
            { w with phase := .snap s.row.counter s.row.version } w hw
          simp only [occWSum] at hsum ⊢
          simp only at hs
          omega
        · intro j u hu c v hph
          by_cases hji : j = i
          · subst hji
            rw [List.getElem?_set_self hlen] at hu
            obtain rfl := Option.some.inj hu
            simp only at hph
            obtain ⟨rfl, rfl⟩ := OCCPhase.snap.inj hph
            refine ⟨hver, ?_⟩
            simp only
            omega
          · rw [List.getElem?_set_ne (fun hij => hji hij.symm)] at hu
            exact hsnap j u hu c v hph
      · exact ⟨hver, hsum, hsnap⟩
    · exact ⟨hver, hsum, hsnap⟩
  · simp only [occStep]
    split
    · rename_i w hw
      split
      · rename_i c v hphase
        obtain ⟨hcv, hr⟩ := hsnap i w hw c v hphase
        obtain ⟨hlen, -⟩ := List.getElem?_eq_some.mp hw
        rcases eq_or_ne s.row.version v with hv | hv
        · simp only [compareAndSwap, if_pos hv]
          simp only [ite_true]
          refine ⟨?_, ?_, ?_⟩
          · simp only
            omega
          · have hs := sum_map_set OCCWorker.remaining s.workers i
              ⟨w.remaining - 1, .idle⟩ w hw
            simp only [occWSum] at hsum ⊢
            simp only at hs
            omega
          · intro j u hu c' v' hph
            by_cases hji : j = i
            · subst hji
              rw [List.getElem?_set_self hlen] at hu
              obtain rfl := Option.some.inj hu
              cases hph
            · rw [List.getElem?_set_ne (fun hij => hji hij.symm)] at hu
              exact hsnap j u hu c' v' hph
        · simp only [compareAndSwap, if_neg hv]
          simp only [Bool.false_eq_true, if_false]
          refine ⟨hver, ?_, ?_⟩
          · have hs := sum_map_set OCCWorker.remaining s.workers i
              { w with phase := .idle } w hw
            simp only [occWSum] at hsum ⊢
            simp only at hs
            omega
          · intro j u hu c' v' hph
            by_cases hji : j = i
            · subst hji
              rw [List.getElem?_set_self hlen] at hu
              obtain rfl := Option.some.inj hu
              cases hph
            · rw [List.getElem?_set_ne (fun hij => hji hij.symm)] at hu
              exact hsnap j u hu c' v' hph
      · exact ⟨hver, hsum, hsnap⟩
    · exact ⟨hver, hsum, hsnap⟩

theorem occRun_inv (total : Nat) (s : OCCState) (sched : List OCCAct)
    (h : occInv total s) : occInv total (occRun s sched) := by
  unfold occRun
  exact foldl_preserves occStep (occInv total)
    (fun t a ht => occStep_inv total t a ht) sched s h

theorem occInit_inv (p n : Nat) : occInv (p * n) (occInit p n) := by
  refine ⟨rfl, ?_, ?_⟩
  · simp [occInit, occWSum, List.map_replicate, List.sum_replicate, mul_comm]
  · intro i w hw c v hph
    have := getElem?_replicate_some hw
    subst this
    cases hph

/-! ## Claims -/

/-- C5: `ensure_row_exists` is idempotent: one (successful) call leaves the
row for `user_id = 1` at `(counter = 0, version = 1)` from every prior store
state — row absent or present with any counter and version — and any number
of calls in sequence leaves that same state. -/
theorem c5_bootstrap_idempotent :
    ∀ st : Option Row,
      upsertCounterRow st = some ⟨0, 1⟩ ∧
      ensure_row_exists false false st = .ok (some ⟨0, 1⟩) ∧
      ∀ k : Nat, upsertCounterRow^[k + 1] st = some ⟨0, 1⟩ := by
  have hconst : ∀ st : Option Row, upsertCounterRow st = some ⟨0, 1⟩ := by
    intro st
    cases st <;> rfl
  have hiter : ∀ (k : Nat) (st : Option Row),
      upsertCounterRow^[k + 1] st = some ⟨0, 1⟩ := by
    intro k
    induction k with
    | zero => intro st; simpa using hconst st
    | succ k ih =>
      intro st
      rw [Function.iterate_succ_apply, hconst st]
      exact ih (some ⟨0, 1⟩)
  intro st
  exact ⟨hconst st, by simp [ensure_row_exists, hconst st], fun k => hiter k st⟩

/-- C8: one `atomicIncrement` (the in-place strategy's single operation,
`UPDATE ... SET counter = counter + 1 ... RETURNING counter`) applied to a
row with counter `c` leaves the row with counter `c + 1` and returns exactly
`c + 1`, the post-increment value. -/
theorem c8_atomicIncrement_post :
    ∀ r : Row,
      (atomicIncrement r).1.counter = r.counter + 1 ∧
      (atomicIncrement r).2 = r.counter + 1 ∧
      (atomicIncrement r).1.version = r.version := by
  intro r
  exact ⟨rfl, rfl, rfl⟩

/-- C1: for the in-place, row-lock, and OCC strategies, for every
`NUM_PROCESSES = p` and `NUM_UPDATES = n` with `p, n ≥ 1`, after every run
— every schedule of worker steps — in which all workers complete their
loops, the final counter of the shared row equals exactly `p × n`, starting
from the bootstrapped `counter = 0`. -/
theorem c1_safe_strategies_exact_count (p n : Nat) (hp : 1 ≤ p)
    (hn : 1 ≤ n) :
    (∀ sched : List Nat, ipDone (ipRun (ipInit p n) sched) →
      (ipRun (ipInit p n) sched).row.counter = p * n) ∧
    (∀ sched : List RLAct, rlDone (rlRun (rlInit p n) sched) →
      (rlRun (rlInit p n) sched).row.counter = p * n) ∧
    (∀ sched : List OCCAct, occDone (occRun (occInit p n) sched) →
      (occRun (occInit p n) sched).row.counter = p * n) := by
  refine ⟨?_, ?_, ?_⟩
  · intro sched hdone
    have hinv := ipRun_counter_sum (ipInit p n) sched
    have hzero : (ipRun (ipInit p n) sched).remaining.sum = 0 :=
      List.sum_eq_zero hdone
    have hinit : (ipInit p n).row.counter + (ipInit p n).remaining.sum
        = p * n := by
      simp [ipInit, List.sum_replicate, smul_eq_mul]
    rw [hzero, Nat.add_zero] at hinv
    rw [hinv, hinit]
  · intro sched hdone
    have hinv := (rlRun_inv (p * n) (rlInit p n) sched (rlInit_inv p n)).1
    have hzero : rlWSum (rlRun (rlInit p n) sched) = 0 :=
      sum_map_zero RLWorker.remaining _ hdone
    rw [hzero, Nat.add_zero] at hinv
    exact hinv
  · intro sched hdone
    have hinv :=
      (occRun_inv (p * n) (occInit p n) sched (occInit_inv p n)).2.1
    have hzero : occWSum (occRun (occInit p n) sched) = 0 :=
      sum_map_zero OCCWorker.remaining _ hdone
    rw [hzero, Nat.add_zero] at hinv
    exact hinv

/-- C1 witness: `p = n = 1` with the obvious complete schedule for each of
the three strategies ends with counter `1 * 1`. -/
theorem c1_safe_strategies_exact_count_witness :
    (ipRun (ipInit 1 1) [0]).row.counter = 1 * 1 ∧
    (rlRun (rlInit 1 1)
      [RLAct.acquireRead 0, RLAct.writeCommit 0]).row.counter = 1 * 1 ∧
    (occRun (occInit 1 1) [OCCAct.read 0, OCCAct.cas 0]).row.counter
      = 1 * 1 :=
  ⟨(c1_safe_strategies_exact_count 1 1 (by decide) (by decide)).1 [0]
      (by decide),
   (c1_safe_strategies_exact_count 1 1 (by decide) (by decide)).2.1
      [RLAct.acquireRead 0, RLAct.writeCommit 0] (by decide),
   (c1_safe_strategies_exact_count 1 1 (by decide) (by decide)).2.2
      [OCCAct.read 0, OCCAct.cas 0] (by decide)⟩

/-- C2: the OCC `compareAndSwap` on a row with expected version `v` (the OCC
strategy passes new values `counter + 1` and `v + 1`) applies the write if
and only if the stored version equals `v`, and reports whether it applied;
a failed swap leaves the row unchanged; a successful swap sets the version
to exactly `v + 1`; and the stored version never decreases, at the primitive
itself and across every scheduled step of the OCC run. -/
theorem c2_compareAndSwap_spec (r : Row) (c v : Nat) :
    ((compareAndSwap r v (c + 1) (v + 1)).2 = true ↔ r.version = v) ∧
    ((compareAndSwap r v (c + 1) (v + 1)).2 = false →
      (compareAndSwap r v (c + 1) (v + 1)).1 = r) ∧
    ((compareAndSwap r v (c + 1) (v + 1)).2 = true →
      (compareAndSwap r v (c + 1) (v + 1)).1.version = v + 1) ∧
    r.version ≤ (compareAndSwap r v (c + 1) (v + 1)).1.version ∧
    (∀ (s : OCCState) (a : OCCAct),
      s.row.version ≤ (occStep s a).row.version) := by
  refine ⟨?_, ?_, ?_, ?_, ?_⟩
  · rcases eq_or_ne r.version v with hv | hv
    · simp [compareAndSwap, hv]
    · simp [compareAndSwap, hv]
  · rcases eq_or_ne r.version v with hv | hv
    · simp [compareAndSwap, hv]
    · simp [compareAndSwap, hv]
  · rcases eq_or_ne r.version v with hv | hv
    · simp [compareAndSwap, hv]
    · simp [compareAndSwap, hv]
  · rcases eq_or_ne r.version v with hv | hv
    · simp only [compareAndSwap, if_pos hv]
      omega
    · simp only [compareAndSwap, if_neg hv]
      exact Nat.le_refl _
  · intro s a
    rcases a with i | i
    · simp only [occStep]
      split
      · split
        · rfl
        · rfl
      · rfl
    · simp only [occStep]
      split
      · split
        · rename_i w hw c' v' hphase
          rcases eq_or_ne s.row.version v' with hv | hv
          · simp only [compareAndSwap, if_pos hv]
            simp
            omega
          · simp only [compareAndSwap, if_neg hv]
            simp
        · rfl
      · rfl

/-- C2 witness: both implications of `c2_compareAndSwap_spec` instantiated:
a swap against a mismatched stored version `5` leaves the row unchanged, and
a successful swap against stored version `1` writes version `2`. -/
theorem c2_compareAndSwap_spec_witness :
    (compareAndSwap ⟨0, 5⟩ 1 1 2).1 = ⟨0, 5⟩ ∧
    (compareAndSwap ⟨0, 1⟩ 1 1 2).1.version = 2 :=
  ⟨(c2_compareAndSwap_spec ⟨0, 5⟩ 0 1).2.1 (by decide),
   (c2_compareAndSwap_spec ⟨0, 1⟩ 0 1).2.2.1 (by decide)⟩

/-- C3 counterexample: with the shared row missing and `NUM_UPDATES = 2`,
the row-lock worker's loop executes both iterations (it logs
`"Skipping update"` and falls through to the next iteration rather than
stopping), and so does the OCC worker's loop (its `break` only leaves the
inner `while True`); so a RowMissing read does not stop further iterations
for every strategy. -/
theorem c3_counterexample_rowlock_continues :
    (rowLockLoop none 2).2 = 2 ∧ ¬ (rowLockLoop none 2).2 ≤ 1 ∧
    (occLoop none 2).2 = 2 := by
  decide

/-- C3 amended: when a read finds no row for `user_id = 1`, only the
lost-update worker stops its loop (it executes just the iteration that hit
the missing row); the row-lock and OCC workers log the condition, skip that
iteration's update, and keep running all remaining iterations; in all three
strategies no update is performed while the row is missing (the store is
left unchanged). -/
theorem c3_row_missing_behaviour :
    (∀ n : Nat, (lostUpdateLoop none (n + 1)).2 = 1 ∧
      (lostUpdateLoop none (n + 1)).1 = none) ∧
    (∀ n : Nat, (rowLockLoop none n).2 = n ∧
      (rowLockLoop none n).1 = none) ∧
    (∀ n : Nat, (occLoop none n).2 = n ∧ (occLoop none n).1 = none) := by
  refine ⟨fun n => ⟨rfl, rfl⟩, ?_, ?_⟩
  · intro n
    induction n with
    | zero => exact ⟨rfl, rfl⟩
    | succ n ih => simp [rowLockLoop, ih.1, ih.2]
  · intro n
    induction n with
    | zero => exact ⟨rfl, rfl⟩
    | succ n ih => simp [occLoop, ih.1, ih.2]

/-- C4 counterexample: with a prior row `(5, 1)` left over from an earlier
run, a failing bootstrap insert-or-reset query (`queryFails = true`, the
connection itself fine) does not abort the run: the worker is still started
and performs its update iteration, moving the counter to `6`. -/
theorem c4_counterexample_query_error_not_fatal :
    runMainLost false true (some ⟨5, 1⟩) 1 1 = .ok (some ⟨6, 1⟩, 1) := rfl

/-- C4 amended: only a failing bootstrap connection aborts the run before
any worker starts (the exception escapes `ensure_row_exists`); a failing
insert-or-reset query is caught and logged inside `ensure_row_exists`, and
the run proceeds to start the workers against the prior store state,
unmodified. -/
theorem c4_bootstrap_failure_behaviour :
    (∀ (q : Bool) (st : Option Row) (p n : Nat),
      runMainLost true q st p n = .error ()) ∧
    (∀ (st : Option Row) (p n : Nat),
      runMainLost false true st p n = .ok (lostWorkers st p n)) ∧
    (∀ (st : Option Row) (p n : Nat),
      runMainLost false false st p n =
        .ok (lostWorkers (upsertCounterRow st) p n)) :=
  ⟨fun _ _ _ _ => rfl, fun _ _ _ => rfl, fun _ _ _ => rfl⟩

/-- C6: a store error during an OCC iteration is rolled back and the same
iteration retried — `e` consecutive errors give `e + 1` attempts, exactly
one committed update, and a full loop under any error schedule still
completes every one of its iterations (the worker never aborts); for the
lost-update, in-place and row-lock strategies a store error ends the
worker's loop at that iteration, with the iterations before the error being
the only completed ones. -/
theorem c6_store_error_handling :
    (∀ (r : Row) (e : Nat),
      occIterAttempts r e = (⟨r.counter + 1, r.version + 1⟩, e + 1)) ∧
    (∀ (r : Row) (es : List Nat),
      (occRunE r es).2 = es.length ∧
      (occRunE r es).1.counter = r.counter + es.length) ∧
    (∀ (r : Row) (es : List Bool), lostRunE r (true :: es) = (r, 0)) ∧
    (∀ (r : Row) (es : List Bool), inPlaceRunE r (true :: es) = (r, 0)) ∧
    (∀ (r : Row) (es : List Bool), rowLockRunE r (true :: es) = (r, 0)) ∧
    (∀ (r : Row) (j : Nat) (es : List Bool),
      (lostRunE r (List.replicate j false ++ true :: es)).2 = j) := by
  refine ⟨fun r e => occIterAttempts_eq r e, fun r es => occRunE_spec es r,
    fun _ _ => rfl, fun _ _ => rfl, fun _ _ => rfl, ?_⟩
  intro r j
  induction j generalizing r with
  | zero => intro es; rfl
  | succ j ih =>
    intro es
    simpa [lostRunE] using ih { r with counter := r.counter + 1 } es

/-- C7: for the lost-update strategy with `p = 2` workers of `n = 1`
iteration each and initial counter `0`, the interleaving
`read 0, read 1, write 0, write 1` has both workers read counter `0` before
either writes, and ends with counter `1`, not `2 = p × n`. -/
theorem c7_lost_update_interleaving :
    ((luRun (luInit 2 1) [LUAct.read 0, LUAct.read 1]).workers.map
        LUWorker.phase = [LUPhase.readValue 0, LUPhase.readValue 0]) ∧
    (luRun (luInit 2 1)
        [LUAct.read 0, LUAct.read 1, LUAct.write 0,
         LUAct.write 1]).row.counter = 1 ∧
    (1 : Nat) ≠ 2 * 1 := by
  decide

/-- C9: a lost-update write step stores exactly `read value + 1` with no
lock and no version guard, and a single worker running `n` iterations alone
with no errors raises the counter from `c` to `c + n`. -/
theorem c9_lost_update_iteration :
    (∀ (s : LUState) (i : Nat) (w : LUWorker) (c : Nat),
      s.workers[i]? = some w → w.phase = .readValue c →
      (luStep s (LUAct.write i)).row.counter = c + 1) ∧
    (∀ (r : Row) (n : Nat),
      (luRun ⟨r, [⟨n, LUPhase.idle⟩]⟩ (luSoloSched n)).row.counter
        = r.counter + n) := by
  constructor
  · intro s i w c hw hphase
    simp only [luStep, hw, hphase]
  · intro r n
    induction n generalizing r with
    | zero => rfl
    | succ n ih =>
      have hstep :
          luRun ⟨r, [⟨n + 1, LUPhase.idle⟩]⟩ (luSoloSched (n + 1))
            = luRun ⟨⟨r.counter + 1, r.version⟩, [⟨n, LUPhase.idle⟩]⟩
                (luSoloSched n) := rfl
      rw [hstep, ih]
      show r.counter + 1 + n = r.counter + (n + 1)
      omega

/-- C9 witness: the write step applied to a worker holding read value `0`
against a store whose counter has meanwhile moved to `7` still writes
`0 + 1 = 1`. -/
theorem c9_lost_update_iteration_witness :
    (luStep ⟨⟨7, 1⟩, [⟨1, LUPhase.readValue 0⟩]⟩
        (LUAct.write 0)).row.counter = 0 + 1 :=
  c9_lost_update_iteration.1 ⟨⟨7, 1⟩, [⟨1, LUPhase.readValue 0⟩]⟩ 0
    ⟨1, LUPhase.readValue 0⟩ 0 rfl rfl

/-- C10: no update step of the lost-update or row-lock strategies ever
modifies the `version` column — in every state and for every scheduled
action, the row's version after the step equals its version before it. -/
theorem c10_version_untouched :
    (∀ (s : LUState) (a : LUAct), (luStep s a).row.version = s.row.version) ∧
    (∀ (s : RLState) (a : RLAct),
      (rlStep s a).row.version = s.row.version) := by
  constructor
  · intro s a
    rcases a with i | i
    · simp only [luStep]
      split
      · split
        · rfl
        · rfl
      · rfl
    · simp only [luStep]
      split
      · split
        · rfl
        · rfl
      · rfl
  · intro s a
    rcases a with i | i
    · simp only [rlStep]
      split
      · split
        · rfl
        · rfl
      · rfl
    · simp only [rlStep]
      split
      · split
        · rfl
        · rfl
      · rfl

end Task1
